import Mathlib

/-!
Shallow embedding of `pipelinerl/finetune/logging_.py`.

Python strings are modelled as `List Char` (`PyStr`): Python indexes and
slices strings by code point, which matches `List Char` exactly
(`s[:n]` is `List.take n`, `s[n:]` is `List.drop n`, `len` is
`List.length`, `s.startswith(t)` is `List.isPrefixOf t s`).

Python dictionaries are modelled as association lists in insertion
order; `result[k] = v` is `insertAssoc`, which overwrites the value at
an existing key in place and otherwise appends, exactly like a Python
dict.
-/

/-- A Python string, as its sequence of code points. -/
abbrev PyStr : Type := List Char

/-- Convert a Lean string literal to a `PyStr`. -/
def pstr (s : String) : PyStr := s.data

/-- A Python dictionary key as it occurs in configs: a string or an int
(Python keys can be arbitrary hashables; these are the ones relevant to
`flatten_dict_config`, whose code calls `str(k)` on keys when joining). -/
inductive PyKey where
  | kstr (s : PyStr)
  | kint (n : Int)
  deriving DecidableEq, Repr

/-- Python `str(k)` on a dictionary key. -/
def PyKey.toStr : PyKey → PyStr
  | .kstr s => s
  | .kint n => (toString n).data

/-- A nested configuration value, as passed to `flatten_dict_config`:
either a leaf scalar (int, string, bool, None) or a nested mapping
(`DictConfig` or `dict` in the source; both take the same branch of the
`isinstance` test). -/
inductive Cfg where
  | vint (n : Int)
  | vstr (s : PyStr)
  | vbool (b : Bool)
  | vnone
  | dict (entries : List (PyKey × Cfg))

/-- The `isinstance(v, DictConfig) or isinstance(v, dict)` test of
`flatten_dict_config`. -/
def Cfg.isDict : Cfg → Bool
  | .dict _ => true
  | _ => false

/-- Python `result[key] = value` on a dict represented as an assoc
list: overwrite in place if the key is present, else append. -/
def insertAssoc (l : List (PyKey × Cfg)) (k : PyKey) (v : Cfg) : List (PyKey × Cfg) :=
  match l with
  | [] => [(k, v)]
  | (k0, v0) :: rest => if k0 = k then (k0, v) :: rest else (k0, v0) :: insertAssoc rest k v

/-- A sequence of `result[key] = value` assignments, in list order. -/
def insertAll (acc : List (PyKey × Cfg)) (l : List (PyKey × Cfg)) : List (PyKey × Cfg) :=
  l.foldl (fun a p => insertAssoc a p.1 p.2) acc

/-- The key `str(k) + separator + str(sub_k)` built by
`flatten_dict_config` when hoisting an entry of a nested dict; the
separator is `"."`, the default, which is what the recursive call in
the source always passes. -/
def joinKey (k : PyKey) (sub : PyKey) : PyKey :=
  .kstr (k.toStr ++ '.' :: sub.toStr)

/-- The loop of `flatten_dict_config` over `d.items()`, carrying the
`result` dict built so far. For a nested-dict entry it flattens the
sub-dict (a recursive call on the sub-dict's own items) and inserts
each of its entries under the joined key; for any other entry it
inserts the value under the unchanged key. -/
def flatten_go : List (PyKey × Cfg) → List (PyKey × Cfg) → List (PyKey × Cfg)
  | [], acc => acc
  | (k, Cfg.dict sub) :: rest, acc =>
      flatten_go rest
        (insertAll acc ((flatten_go sub []).map (fun p => (joinKey k p.1, p.2))))
  | (k, v) :: rest, acc => flatten_go rest (insertAssoc acc k v)
  termination_by es _ => sizeOf es
  decreasing_by
    all_goals simp_wf
    all_goals omega

/-- The function `flatten_dict_config(d)` with the default separator, where `es` is
`d.items()`. -/
def flatten_dict_config (es : List (PyKey × Cfg)) : List (PyKey × Cfg) :=
  flatten_go es []

/-! ## `init_wandb` -/

/-- The fields of `cfg.finetune` that `init_wandb` branches on. Python
truthiness of `wandb_workspace_root` and `wandb_id` (unset / `None` /
`""`) is modelled as the empty string. -/
structure FinetuneCfg where
  wandb_resume : String
  wandb_workspace_root : PyStr
  wandb_id : PyStr

/-- The exceptions `init_wandb` can raise before calling `wandb.init`. -/
inductive WandbError where
  | notImplemented
  | unknownResume (value : String)
  | runDirNotUnderRoot
  deriving DecidableEq, Repr

/-- The mapping of `cfg.finetune.wandb_resume` onto the resume argument
of `wandb.init` (the first if/elif chain of `init_wandb`). -/
def resolve_resume (s : String) : Except WandbError String :=
  if s = "always" then .ok "allow"
  else if s = "never" then .ok "never"
  else if s = "if_not_interactive" then .error .notImplemented
  else .error (.unknownResume s)

/-- Derivation of `wandb_name` from `str(run_dir)`: when a workspace
root is set (truthy), require `wandb_name.startswith(root + "/")` and
strip `wandb_name[len(root) + 1:]`. -/
def derive_name (root run_dir : PyStr) : Except WandbError PyStr :=
  if root = [] then .ok run_dir
  else if (root ++ ['/']).isPrefixOf run_dir then .ok (run_dir.drop (root.length + 1))
  else .error .runDirNotUnderRoot

/-- Python `s.replace("/", "_")` for the single-character pattern and
replacement used in `init_wandb`: substitute each `'/'` code point. -/
def replaceSlashUnderscore (s : PyStr) : PyStr :=
  s.map (fun c => if c = '/' then '_' else c)

/-- The name, id and resume arguments that `init_wandb` passes to
`wandb.init` when it reaches the call. -/
structure WandbInitArgs where
  name : PyStr
  id : PyStr
  resume : String
  deriving DecidableEq, Repr

/-- The function `init_wandb` up to the `wandb.init` call, in source order: resolve
the resume policy, derive the run name (possibly stripping the
workspace root), derive the id (`cfg.finetune.wandb_id` if truthy, else
the name with `/` replaced by `_`), and pass `name=wandb_name[:128]`
and `id=wandb_id` to `wandb.init`. -/
def init_wandb (cfg : FinetuneCfg) (run_dir : PyStr) : Except WandbError WandbInitArgs := do
  let resume ← resolve_resume cfg.wandb_resume
  let wandb_name ← derive_name cfg.wandb_workspace_root run_dir
  let wandb_id := if cfg.wandb_id = [] then replaceSlashUnderscore wandb_name else cfg.wandb_id
  pure { name := wandb_name.take 128, id := wandb_id, resume := resume }

/-! ## `log_metrics` -/

/-- A Python value appearing in a metrics dict (values are typed `Any`
in the source). `vdec` stands for a `decimal.Decimal` carrying an
integral value: it supports `.3f` formatting but is not an instance of
`int` or `float`. -/
inductive PyVal where
  | vint (n : Int)
  | vbool (b : Bool)
  | vdec (n : Int)
  | vstr (s : PyStr)
  | vnone
  deriving DecidableEq, Repr

/-- The filter `isinstance(v, (int, float))` of `log_metrics`; `bool`
is a subclass of `int` in Python, so booleans pass; `Decimal` is
neither, so it does not. -/
def PyVal.isNumeric : PyVal → Bool
  | .vint _ => true
  | .vbool _ => true
  | .vdec _ => false
  | .vstr _ => false
  | .vnone => false

/-- Python `f"{v:.3f}"`: fixed-point formatting succeeds for ints,
bools (a bool formats as its int value) and decimals, and raises for
strings (`ValueError`) and `None` (`TypeError`). -/
def format3f : PyVal → Except Unit String
  | .vint n => .ok (toString n ++ ".000")
  | .vbool b => .ok (if b then "1.000" else "0.000")
  | .vdec n => .ok (toString n ++ ".000")
  | .vstr _ => .error ()
  | .vnone => .error ()

/-- One entry of the `metrics_pretty` dict comprehension:
`k: f"{v:.3f}"`. -/
def prettyEntry (p : String × PyVal) : Except Unit (String × String) :=
  (format3f p.2).map (fun s => (p.1, s))

/-- The `metrics_pretty` dict comprehension
`{k: f"{v:.3f}" for k, v in metrics.items()}`: formats every entry in
order, raising at the first entry whose value does not support `.3f`. -/
def mapPretty : List (String × PyVal) → Except Unit (List (String × String))
  | [] => .ok []
  | p :: rest => do
    let b ← prettyEntry p
    let bs ← mapPretty rest
    pure (b :: bs)

/-- An observable action of `log_metrics`: a local info log of the
rounded summary, a local error log, or a `wandb.log` network call. -/
inductive LogEffect where
  | info (completedSteps : Int) (pretty : List (String × String))
  | errorLog (completedSteps : Int)
  | wandbLog (metrics : List (String × PyVal)) (step : Int)
  deriving DecidableEq, Repr

/-- The function `log_metrics`. Returns the list of observable effects in order, or
an error when an uncaught exception propagates to the caller.
`isMainProcess` is `get_accelerator().is_main_process`; `wandbOk`
states whether the `wandb.log` call succeeds (it is an external network
call; on failure the except-block logs an error instead). The
dict comprehension building `metrics_pretty` runs before the `try`
block, so a formatting failure propagates. -/
def log_metrics (isMainProcess : Bool) (wandbOk : Bool) (completedSteps : Int)
    (metrics : List (String × PyVal)) : Except Unit (List LogEffect) := do
  if isMainProcess = false then
    pure []
  else do
    let pretty ← mapPretty metrics
    let numeric := metrics.filter (fun p => p.2.isNumeric)
    if wandbOk then
      pure [.info completedSteps pretty, .wandbLog numeric completedSteps]
    else
      pure [.info completedSteps pretty, .errorLog completedSteps]

/-! ## `setup_logging` -/

/-- The attributes of a `wandb` run handle that `setup_logging`
reads: `run.name`, `run.entity`, `run.project_name()`, `run.id`. -/
structure WRun where
  name : PyStr
  entity : PyStr
  projectName : PyStr
  id : PyStr
  deriving DecidableEq, Repr

/-- The main-process branch of `setup_logging`: when no run handle was
passed in and `cfg.finetune.use_wandb` is set, call `init_wandb` —
whose outcome, including any exception the tracking client raises, is
`initResult` — catching any exception and falling back to `run = None`;
then build the `wandb_config` dict written to `wandb_info.json`: empty
when there is no run, else exactly name (truncated to 128), entity,
project and id. Returns the active run and the written dict. -/
def setup_logging_main (use_wandb : Bool) (run0 : Option WRun)
    (initResult : Except String WRun) : Option WRun × List (String × PyStr) :=
  let run : Option WRun :=
    match run0 with
    | some r => some r
    | none =>
      if use_wandb then
        match initResult with
        | .ok r => some r
        | .error _ => none
      else none
  let wandb_config : List (String × PyStr) :=
    match run with
    | none => []
    | some r =>
      [("name", r.name.take 128), ("entity", r.entity),
       ("project", r.projectName), ("id", r.id)]
  (run, wandb_config)

/-! ## Leaf paths in a nested config -/

/-- The dot-join of a nonempty key path, exactly as the nested loops of
`flatten_dict_config` build composite keys: a one-key path stays as the
original key object, a longer path becomes the string
`str(k) + "." + str(join of the rest)`. -/
def joinPath : List PyKey → PyKey
  | [] => .kstr []
  | [k] => k
  | k :: rest => joinKey k (joinPath rest)

/-- The relation `PathTo d p v`: inside the nested dict `d`, following the nonempty
key path `p` leads to the entry `v`, which is not itself a dict (a
"leaf" of the nested mapping). -/
inductive PathTo : Cfg → List PyKey → Cfg → Prop where
  | leaf {es : List (PyKey × Cfg)} {k : PyKey} {v : Cfg} :
      (k, v) ∈ es → v.isDict = false → PathTo (.dict es) [k] v
  | step {es : List (PyKey × Cfg)} {k : PyKey} {sub : List (PyKey × Cfg)}
      {p : List PyKey} {v : Cfg} :
      (k, .dict sub) ∈ es → PathTo (.dict sub) p v → PathTo (.dict es) (k :: p) v

/-- The items of the example mapping
`{"a": {"b": 1, "c": {"d": 2}}}`. -/
def exampleNested : List (PyKey × Cfg) :=
  [(.kstr (pstr "a"),
    .dict [(.kstr (pstr "b"), .vint 1),
           (.kstr (pstr "c"), .dict [(.kstr (pstr "d"), .vint 2)])])]

/-! ## Theorems: `log_metrics` -/

theorem mapPretty_error {metrics : List (String × PyVal)} {k : String} {v : PyVal}
    (hm : (k, v) ∈ metrics) (hf : format3f v = .error ()) :
    mapPretty metrics = .error () := by
  induction metrics with
  | nil => cases hm
  | cons hd tl ih =>
    rcases List.mem_cons.mp hm with h | h
    · subst h
      simp [mapPretty, prettyEntry, hf, Bind.bind, Except.bind, Except.map]
    · cases hfh : prettyEntry hd with
      | error e =>
        cases e
        simp [mapPretty, hfh, Bind.bind, Except.bind]
      | ok b =>
        simp [mapPretty, hfh, ih h, Bind.bind, Except.bind]

theorem log_metrics_main_shape {wandbOk : Bool} {step : Int}
    {metrics : List (String × PyVal)} {effs : List LogEffect}
    (h : log_metrics true wandbOk step metrics = .ok effs) :
    ∃ pretty, mapPretty metrics = .ok pretty ∧
      effs = [LogEffect.info step pretty,
        if wandbOk then
          LogEffect.wandbLog (metrics.filter (fun p => p.2.isNumeric)) step
        else LogEffect.errorLog step] := by
  unfold log_metrics at h
  cases hp : mapPretty metrics with
  | error e => simp [hp, Bind.bind, Except.bind] at h
  | ok pretty =>
    refine ⟨pretty, rfl, ?_⟩
    cases wandbOk <;>
      simp [hp, Bind.bind, Except.bind, Pure.pure, Except.pure] at h <;>
      exact h.symm

/-- Claim C5: on a non-coordinating process (`is_main_process` false),
`log_metrics` returns immediately with no observable effects and no
exception, for every step counter, metrics mapping, and state of the
tracking service. -/
theorem log_metrics_non_main_no_effects (wandbOk : Bool) (step : Int)
    (metrics : List (String × PyVal)) :
    log_metrics false wandbOk step metrics = .ok [] := by
  simp [log_metrics, Pure.pure, Except.pure]

/-- Claim C7: on the coordinator process, whenever the rounded-summary
formatting succeeds, `log_metrics` forwards to the tracking run exactly
the numeric-valued entries of the metrics mapping (`isinstance(v,
(int, float))`), keyed by the step counter; a failure of the `wandb.log`
call is caught and turned into an error log, never propagated (the
result is `.ok` in both cases). -/
theorem log_metrics_forwards_numeric (wandbOk : Bool) (step : Int)
    (metrics : List (String × PyVal)) (pretty : List (String × String))
    (hp : mapPretty metrics = .ok pretty) :
    log_metrics true wandbOk step metrics =
      .ok [LogEffect.info step pretty,
        if wandbOk then
          LogEffect.wandbLog (metrics.filter (fun p => p.2.isNumeric)) step
        else LogEffect.errorLog step] := by
  cases wandbOk <;>
    simp [log_metrics, hp, Bind.bind, Except.bind, Pure.pure, Except.pure]

/-- Witness for C7 at a concrete input: one int metric (forwarded) and
one Decimal metric (formattable but filtered out), in both the
succeeding and the failing `wandb.log` case. -/
theorem log_metrics_forwards_numeric_witness :
    log_metrics true true 7 [("loss", PyVal.vint 2), ("d", PyVal.vdec 3)] =
      .ok [LogEffect.info 7 [("loss", "2.000"), ("d", "3.000")],
        LogEffect.wandbLog [("loss", PyVal.vint 2)] 7] ∧
    log_metrics true false 7 [("loss", PyVal.vint 2), ("d", PyVal.vdec 3)] =
      .ok [LogEffect.info 7 [("loss", "2.000"), ("d", "3.000")],
        LogEffect.errorLog 7] := by
  constructor
  · have h := log_metrics_forwards_numeric true 7
      [("loss", PyVal.vint 2), ("d", PyVal.vdec 3)]
      [("loss", "2.000"), ("d", "3.000")] (by rfl)
    simpa using h
  · have h := log_metrics_forwards_numeric false 7
      [("loss", PyVal.vint 2), ("d", PyVal.vdec 3)]
      [("loss", "2.000"), ("d", "3.000")] (by rfl)
    simpa using h

/-- Claim C8: on the coordinator process, a metrics value that does not
support `.3f` formatting (for example a string) makes `log_metrics`
raise, and the exception propagates to the caller: the
`metrics_pretty` comprehension runs before the `try` block guarding
forwarding. -/
theorem log_metrics_format_failure_propagates (wandbOk : Bool) (step : Int)
    (metrics : List (String × PyVal)) (k : String) (s : PyStr)
    (hm : (k, PyVal.vstr s) ∈ metrics) :
    log_metrics true wandbOk step metrics = .error () := by
  have herr : mapPretty metrics = .error () :=
    mapPretty_error hm rfl
  simp [log_metrics, herr, Bind.bind, Except.bind]

/-- Witness for C8: a single string-valued metric makes `log_metrics`
raise on the main process. -/
theorem log_metrics_format_failure_witness :
    log_metrics true true 3 [("msg", PyVal.vstr (pstr "oops"))] = .error () :=
  log_metrics_format_failure_propagates true 3 _ "msg" (pstr "oops")
    (List.mem_singleton.mpr rfl)

/-- Claim C9: the numeric filter of `log_metrics` admits booleans
(`bool` is a subclass of `int`): any boolean-valued entry of the
metrics mapping is part of the payload forwarded to the tracking run. -/
theorem log_metrics_forwards_bools (step : Int) (metrics : List (String × PyVal))
    (k : String) (b : Bool) (effs : List LogEffect)
    (hm : (k, PyVal.vbool b) ∈ metrics)
    (h : log_metrics true true step metrics = .ok effs) :
    ∃ fwd, LogEffect.wandbLog fwd step ∈ effs ∧ (k, PyVal.vbool b) ∈ fwd := by
  obtain ⟨pretty, _, heff⟩ := log_metrics_main_shape h
  subst heff
  refine ⟨metrics.filter (fun p => p.2.isNumeric), by simp, ?_⟩
  exact List.mem_filter.mpr ⟨hm, rfl⟩

/-- Witness for C9: a boolean metric is forwarded. -/
theorem log_metrics_forwards_bools_witness :
    ∃ fwd, LogEffect.wandbLog fwd 1 ∈
        [LogEffect.info 1 [("flag", "1.000")],
         LogEffect.wandbLog [("flag", PyVal.vbool true)] 1] ∧
      ("flag", PyVal.vbool true) ∈ fwd :=
  log_metrics_forwards_bools 1 [("flag", PyVal.vbool true)] "flag" true _
    (List.mem_singleton.mpr rfl) (by rfl)

/-! ## Theorems: `init_wandb` -/

/-- Claim C3: with a non-empty (truthy) workspace root configured, if
the run directory string does not start with the root followed by `/`,
`init_wandb` raises before the `wandb.init` call (no argument record is
ever produced). -/
theorem init_wandb_root_mismatch_fails (cfg : FinetuneCfg) (run_dir : PyStr)
    (hroot : cfg.wandb_workspace_root ≠ [])
    (hpre : (cfg.wandb_workspace_root ++ ['/']).isPrefixOf run_dir = false) :
    ∃ e, init_wandb cfg run_dir = .error e := by
  cases hr : resolve_resume cfg.wandb_resume with
  | error e =>
    exact ⟨e, by simp [init_wandb, hr, Bind.bind, Except.bind]⟩
  | ok r =>
    refine ⟨.runDirNotUnderRoot, ?_⟩
    simp [init_wandb, hr, derive_name, hroot, hpre, Bind.bind, Except.bind]

/-- Witness for C3 at the spec's example:
`wandb_workspace_root="/runs"`, `run_dir="/other/x"`. -/
theorem init_wandb_root_mismatch_witness :
    ∃ e, init_wandb ⟨"always", pstr "/runs", []⟩ (pstr "/other/x") = .error e :=
  init_wandb_root_mismatch_fails ⟨"always", pstr "/runs", []⟩ (pstr "/other/x")
    (by decide) (by decide)

/-- Claim C4: `init_wandb` fails fast for every resume-policy value
outside `{"always", "never"}`: `"if_not_interactive"` raises
`NotImplementedError` unconditionally, any other unknown value raises a
`ValueError` naming the value, and `"always"` / `"never"` are mapped to
`"allow"` / `"never"` without raising at this step. -/
theorem init_wandb_resume_policy :
    (∀ (cfg : FinetuneCfg) (run_dir : PyStr),
       cfg.wandb_resume = "if_not_interactive" →
       init_wandb cfg run_dir = .error .notImplemented) ∧
    (∀ (cfg : FinetuneCfg) (run_dir : PyStr),
       cfg.wandb_resume ≠ "always" → cfg.wandb_resume ≠ "never" →
       cfg.wandb_resume ≠ "if_not_interactive" →
       init_wandb cfg run_dir = .error (.unknownResume cfg.wandb_resume)) ∧
    resolve_resume "always" = .ok "allow" ∧
    resolve_resume "never" = .ok "never" := by
  refine ⟨?_, ?_, rfl, rfl⟩
  · intro cfg run_dir h
    have hr : resolve_resume cfg.wandb_resume = .error .notImplemented := by
      rw [h]; rfl
    simp [init_wandb, hr, Bind.bind, Except.bind]
  · intro cfg run_dir h1 h2 h3
    have hr : resolve_resume cfg.wandb_resume = .error (.unknownResume cfg.wandb_resume) := by
      simp [resolve_resume, h1, h2, h3]
    simp [init_wandb, hr, Bind.bind, Except.bind]

/-- Witness for C4: `"if_not_interactive"` and an arbitrary unknown
value both raise, at concrete configurations. -/
theorem init_wandb_resume_policy_witness :
    init_wandb ⟨"if_not_interactive", [], []⟩ (pstr "x") = .error .notImplemented ∧
    init_wandb ⟨"sometimes", [], []⟩ (pstr "x") = .error (.unknownResume "sometimes") :=
  ⟨init_wandb_resume_policy.1 ⟨"if_not_interactive", [], []⟩ (pstr "x") rfl,
   init_wandb_resume_policy.2.1 ⟨"sometimes", [], []⟩ (pstr "x")
     (by decide) (by decide) (by decide)⟩

/-- Counterexample for C1: with no explicit `wandb_id`, no workspace
root and a 129-character run directory, the name passed to `wandb.init`
is truncated to 128 characters but the id — derived from the
*untruncated* name — is passed with 129 characters, exceeding the
claimed 128-character bound. -/
theorem init_wandb_id_not_truncated :
    (init_wandb ⟨"always", [], []⟩
        (List.replicate 64 'a' ++ '/' :: List.replicate 64 'b')).map
      (fun a => (a.name.length, a.id.length)) = .ok (128, 129) := by
  rfl

/-- Claim C1 (amended): the run display name passed to `wandb.init` is
the derived run name truncated to at most 128 characters (exactly 128
when the derived name is longer), but the run identifier is not
truncated: when no explicit `wandb_id` is configured it is derived from
the untruncated run name by substituting `/` with `_`. -/
theorem init_wandb_truncation (cfg : FinetuneCfg) (run_dir : PyStr)
    (args : WandbInitArgs) (nm : PyStr)
    (hok : init_wandb cfg run_dir = .ok args)
    (hnm : derive_name cfg.wandb_workspace_root run_dir = .ok nm) :
    args.name = nm.take 128 ∧ args.name.length ≤ 128 ∧
    (128 < nm.length → args.name.length = 128) ∧
    (cfg.wandb_id = [] → args.id = replaceSlashUnderscore nm) := by
  cases hr : resolve_resume cfg.wandb_resume with
  | error e => simp [init_wandb, hr, Bind.bind, Except.bind] at hok
  | ok r =>
    simp [init_wandb, hr, hnm, Bind.bind, Except.bind, Pure.pure, Except.pure] at hok
    subst hok
    refine ⟨rfl, ?_, ?_, ?_⟩
    · simp [List.length_take]
    · intro h
      simp [List.length_take]
      omega
    · intro h
      simp [h]

/-- Witness for C1 (amended) at the counterexample input: the name is
the 128-character truncation, the id the untruncated substitution. -/
theorem init_wandb_truncation_witness :
    (List.replicate 64 'a' ++ '/' :: List.replicate 64 'b' : PyStr).take 128 =
        ((List.replicate 64 'a' ++ '/' :: List.replicate 64 'b' : PyStr)).take 128 ∧
    ((List.replicate 64 'a' ++ '/' :: List.replicate 64 'b' : PyStr).take 128).length ≤ 128 ∧
    (128 < (List.replicate 64 'a' ++ '/' :: List.replicate 64 'b' : PyStr).length →
      ((List.replicate 64 'a' ++ '/' :: List.replicate 64 'b' : PyStr).take 128).length = 128) ∧
    (([] : PyStr) = [] →
      replaceSlashUnderscore (List.replicate 64 'a' ++ '/' :: List.replicate 64 'b') =
        replaceSlashUnderscore (List.replicate 64 'a' ++ '/' :: List.replicate 64 'b')) := by
  have h := init_wandb_truncation ⟨"always", [], []⟩
    (List.replicate 64 'a' ++ '/' :: List.replicate 64 'b')
    ⟨(List.replicate 64 'a' ++ '/' :: List.replicate 64 'b' : PyStr).take 128,
     replaceSlashUnderscore (List.replicate 64 'a' ++ '/' :: List.replicate 64 'b'), "allow"⟩
    (List.replicate 64 'a' ++ '/' :: List.replicate 64 'b') rfl rfl
  exact h

/-! ## Theorems: `setup_logging` -/

/-- Claim C6: on the coordinator, if the tracking client raises during
init, `setup_logging` completes without raising, leaves no tracking run
active and writes an empty dict to `wandb_info.json`; whenever no run
is active the written dict is empty; and whenever a run is active the
written dict has exactly the keys name, entity, project, id. -/
theorem setup_logging_wandb_info :
    (∀ e : String, setup_logging_main true none (.error e) = (none, [])) ∧
    (∀ (u : Bool) (r0 : Option WRun) (ir : Except String WRun),
       (setup_logging_main u r0 ir).1 = none → (setup_logging_main u r0 ir).2 = []) ∧
    (∀ (u : Bool) (r0 : Option WRun) (ir : Except String WRun) (r : WRun)
       (cfgj : List (String × PyStr)),
       setup_logging_main u r0 ir = (some r, cfgj) →
       cfgj.map Prod.fst = ["name", "entity", "project", "id"]) := by
  refine ⟨fun e => rfl, ?_, ?_⟩
  · intro u r0 ir h
    rcases r0 with _ | r0
    · cases u
      · rfl
      · rcases ir with e | rr
        · rfl
        · simp [setup_logging_main] at h
    · simp [setup_logging_main] at h
  · intro u r0 ir r cfgj h
    rcases r0 with _ | r0
    · cases u
      · simp [setup_logging_main] at h
      · rcases ir with e | rr
        · simp [setup_logging_main] at h
        · simp [setup_logging_main] at h
          rcases h with ⟨h1, h2⟩
          subst h2
          rfl
    · simp [setup_logging_main] at h
      rcases h with ⟨h1, h2⟩
      subst h2
      rfl

/-- Witness for C6: a failing init yields no run and an empty file; a
successful init yields exactly the four keys. -/
theorem setup_logging_wandb_info_witness :
    setup_logging_main true none (.error "connection refused") = (none, []) ∧
    ([("name", (pstr "n").take 128), ("entity", pstr "e"),
      ("project", pstr "p"), ("id", pstr "i")].map Prod.fst =
        ["name", "entity", "project", "id"]) :=
  ⟨setup_logging_wandb_info.1 "connection refused",
   setup_logging_wandb_info.2.2 true none
     (.ok ⟨pstr "n", pstr "e", pstr "p", pstr "i"⟩)
     ⟨pstr "n", pstr "e", pstr "p", pstr "i"⟩
     [("name", (pstr "n").take 128), ("entity", pstr "e"),
      ("project", pstr "p"), ("id", pstr "i")] rfl⟩

/-! ## Theorems: `flatten_dict_config` -/

theorem flatten_go_cons_dict (k : PyKey) (sub rest acc : List (PyKey × Cfg)) :
    flatten_go ((k, Cfg.dict sub) :: rest) acc =
      flatten_go rest
        (insertAll acc ((flatten_go sub []).map (fun p => (joinKey k p.1, p.2)))) := by
  simp [flatten_go]

theorem flatten_go_cons_ndict (k : PyKey) (v : Cfg) (rest acc : List (PyKey × Cfg))
    (hv : v.isDict = false) :
    flatten_go ((k, v) :: rest) acc = flatten_go rest (insertAssoc acc k v) := by
  cases v with
  | dict sub => simp [Cfg.isDict] at hv
  | vint n => simp [flatten_go]
  | vstr s => simp [flatten_go]
  | vbool b => simp [flatten_go]
  | vnone => simp [flatten_go]

theorem mem_insertAssoc {l : List (PyKey × Cfg)} {k a : PyKey} {v b : Cfg}
    (h : (a, b) ∈ insertAssoc l k v) : (a, b) = (k, v) ∨ (a, b) ∈ l := by
  induction l with
  | nil =>
    simp [insertAssoc] at h
    exact Or.inl (by simp [h])
  | cons hd tl ih =>
    obtain ⟨k0, v0⟩ := hd
    by_cases hk : k0 = k
    · subst hk
      simp [insertAssoc] at h
      rcases h with ⟨h1, h2⟩ | h
      · exact Or.inl (by simp [h1, h2])
      · exact Or.inr (List.mem_cons_of_mem _ h)
    · simp [insertAssoc, hk] at h
      rcases h with ⟨h1, h2⟩ | h
      · exact Or.inr (by simp [h1, h2])
      · rcases ih h with h | h
        · exact Or.inl h
        · exact Or.inr (List.mem_cons_of_mem _ h)

theorem mem_insertAll {acc l : List (PyKey × Cfg)} {a : PyKey} {b : Cfg}
    (h : (a, b) ∈ insertAll acc l) : (a, b) ∈ acc ∨ (a, b) ∈ l := by
  induction l generalizing acc with
  | nil => exact Or.inl h
  | cons hd tl ih =>
    rcases ih (by simpa [insertAll] using h) with h2 | h2
    · rcases mem_insertAssoc h2 with h3 | h3
      · exact Or.inr (by simp [h3])
      · exact Or.inl h3
    · exact Or.inr (List.mem_cons_of_mem _ h2)

theorem self_mem_insertAssoc (l : List (PyKey × Cfg)) (k : PyKey) (v : Cfg) :
    (k, v) ∈ insertAssoc l k v := by
  induction l with
  | nil => simp [insertAssoc]
  | cons hd tl ih =>
    obtain ⟨k0, v0⟩ := hd
    by_cases hk : k0 = k
    · subst hk
      simp [insertAssoc]
    · simp [insertAssoc, hk]
      exact Or.inr ih

theorem exists_mem_insertAssoc_of_mem {l : List (PyKey × Cfg)} {a : PyKey} {b : Cfg}
    (k : PyKey) (v : Cfg) (h : (a, b) ∈ l) :
    ∃ b2, (a, b2) ∈ insertAssoc l k v := by
  induction l with
  | nil => cases h
  | cons hd tl ih =>
    obtain ⟨k0, v0⟩ := hd
    by_cases hk : k0 = k
    · subst hk
      rcases List.mem_cons.mp h with h2 | h2
      · obtain ⟨rfl, rfl⟩ := Prod.mk.injEq .. ▸ h2
        exact ⟨v, by simp [insertAssoc]⟩
      · refine ⟨b, ?_⟩
        simp [insertAssoc]
        exact Or.inr h2
    · rcases List.mem_cons.mp h with h2 | h2
      · refine ⟨b, ?_⟩
        simp [insertAssoc, hk, h2]
      · obtain ⟨b2, hb2⟩ := ih h2
        refine ⟨b2, ?_⟩
        simp [insertAssoc, hk]
        exact Or.inr hb2

theorem exists_mem_insertAll_of_mem_left {acc : List (PyKey × Cfg)} {a : PyKey} {b : Cfg}
    (l : List (PyKey × Cfg)) (h : (a, b) ∈ acc) :
    ∃ b2, (a, b2) ∈ insertAll acc l := by
  induction l generalizing acc b with
  | nil => exact ⟨b, h⟩
  | cons hd tl ih =>
    obtain ⟨b1, hb1⟩ := exists_mem_insertAssoc_of_mem hd.1 hd.2 h
    simpa [insertAll] using ih hb1

theorem exists_mem_insertAll_of_mem_right {l : List (PyKey × Cfg)} {a : PyKey} {b : Cfg}
    (acc : List (PyKey × Cfg)) (h : (a, b) ∈ l) :
    ∃ b2, (a, b2) ∈ insertAll acc l := by
  induction l generalizing acc with
  | nil => cases h
  | cons hd tl ih =>
    rcases List.mem_cons.mp h with h2 | h2
    · subst h2
      have h3 : (a, b) ∈ insertAssoc acc a b := self_mem_insertAssoc acc a b
      simpa [insertAll] using exists_mem_insertAll_of_mem_left tl h3
    · simpa [insertAll] using ih _ h2

theorem exists_mem_flatten_go_of_mem_acc (es : List (PyKey × Cfg))
    (acc : List (PyKey × Cfg)) (a : PyKey) (b : Cfg) (h : (a, b) ∈ acc) :
    ∃ b2, (a, b2) ∈ flatten_go es acc := by
  match es with
  | [] =>
    exact ⟨b, by simpa [flatten_go] using h⟩
  | (k, Cfg.dict sub) :: rest =>
    rw [flatten_go_cons_dict]
    obtain ⟨b1, hb1⟩ := exists_mem_insertAll_of_mem_left
      ((flatten_go sub []).map (fun p => (joinKey k p.1, p.2))) h
    exact exists_mem_flatten_go_of_mem_acc rest _ a b1 hb1
  | (k, Cfg.vint n) :: rest =>
    rw [flatten_go_cons_ndict k (Cfg.vint n) rest acc rfl]
    obtain ⟨b1, hb1⟩ := exists_mem_insertAssoc_of_mem k (Cfg.vint n) h
    exact exists_mem_flatten_go_of_mem_acc rest _ a b1 hb1
  | (k, Cfg.vstr s) :: rest =>
    rw [flatten_go_cons_ndict k (Cfg.vstr s) rest acc rfl]
    obtain ⟨b1, hb1⟩ := exists_mem_insertAssoc_of_mem k (Cfg.vstr s) h
    exact exists_mem_flatten_go_of_mem_acc rest _ a b1 hb1
  | (k, Cfg.vbool b0) :: rest =>
    rw [flatten_go_cons_ndict k (Cfg.vbool b0) rest acc rfl]
    obtain ⟨b1, hb1⟩ := exists_mem_insertAssoc_of_mem k (Cfg.vbool b0) h
    exact exists_mem_flatten_go_of_mem_acc rest _ a b1 hb1
  | (k, Cfg.vnone) :: rest =>
    rw [flatten_go_cons_ndict k Cfg.vnone rest acc rfl]
    obtain ⟨b1, hb1⟩ := exists_mem_insertAssoc_of_mem k Cfg.vnone h
    exact exists_mem_flatten_go_of_mem_acc rest _ a b1 hb1
  termination_by sizeOf es

theorem pathTo_ne_nil {d : Cfg} {p : List PyKey} {v : Cfg} (h : PathTo d p v) :
    p ≠ [] := by
  cases h <;> simp

theorem joinPath_cons (k : PyKey) (p : List PyKey) (hp : p ≠ []) :
    joinPath (k :: p) = joinKey k (joinPath p) := by
  cases p with
  | nil => cases hp rfl
  | cons q qs => rfl

theorem pathTo_cons {es : List (PyKey × Cfg)} {e : PyKey × Cfg} {p : List PyKey} {v : Cfg}
    (h : PathTo (.dict es) p v) : PathTo (.dict (e :: es)) p v := by
  cases h with
  | leaf hm hnd => exact .leaf (List.mem_cons_of_mem _ hm) hnd
  | step hm hp => exact .step (List.mem_cons_of_mem _ hm) hp

theorem key_mem_flatten_go_leaf {es : List (PyKey × Cfg)} {k : PyKey} {v : Cfg}
    (acc : List (PyKey × Cfg)) (h : (k, v) ∈ es) (hv : v.isDict = false) :
    ∃ b2, (k, b2) ∈ flatten_go es acc := by
  match es with
  | [] => cases h
  | (k0, v0) :: rest =>
    rcases List.mem_cons.mp h with h2 | h2
    · injection h2 with h2a h2b
      subst h2a
      subst h2b
      rw [flatten_go_cons_ndict k v rest acc hv]
      exact exists_mem_flatten_go_of_mem_acc rest _ k v (self_mem_insertAssoc acc k v)
    · cases hv0 : v0.isDict with
      | false =>
        rw [flatten_go_cons_ndict k0 v0 rest acc hv0]
        exact key_mem_flatten_go_leaf _ h2 hv
      | true =>
        cases v0 with
        | dict sub =>
          rw [flatten_go_cons_dict]
          exact key_mem_flatten_go_leaf _ h2 hv
        | vint n => simp [Cfg.isDict] at hv0
        | vstr s => simp [Cfg.isDict] at hv0
        | vbool b => simp [Cfg.isDict] at hv0
        | vnone => simp [Cfg.isDict] at hv0
  termination_by sizeOf es

theorem key_mem_flatten_go_dict {es sub : List (PyKey × Cfg)} {k a0 : PyKey} {b0 : Cfg}
    (acc : List (PyKey × Cfg)) (h : (k, Cfg.dict sub) ∈ es)
    (hsub : (a0, b0) ∈ flatten_go sub []) :
    ∃ b2, (joinKey k a0, b2) ∈ flatten_go es acc := by
  match es with
  | [] => cases h
  | (k0, v0) :: rest =>
    rcases List.mem_cons.mp h with h2 | h2
    · injection h2 with h2a h2b
      subst h2a
      subst h2b
      rw [flatten_go_cons_dict]
      have hmap : (joinKey k a0, b0) ∈
          (flatten_go sub []).map (fun p => (joinKey k p.1, p.2)) :=
        List.mem_map.mpr ⟨(a0, b0), hsub, rfl⟩
      obtain ⟨b1, hb1⟩ := exists_mem_insertAll_of_mem_right acc hmap
      exact exists_mem_flatten_go_of_mem_acc rest _ _ b1 hb1
    · cases hv0 : v0.isDict with
      | false =>
        rw [flatten_go_cons_ndict k0 v0 rest acc hv0]
        exact key_mem_flatten_go_dict _ h2 hsub
      | true =>
        cases v0 with
        | dict sub0 =>
          rw [flatten_go_cons_dict]
          exact key_mem_flatten_go_dict _ h2 hsub
        | vint n => simp [Cfg.isDict] at hv0
        | vstr s => simp [Cfg.isDict] at hv0
        | vbool b => simp [Cfg.isDict] at hv0
        | vnone => simp [Cfg.isDict] at hv0
  termination_by sizeOf es

theorem pathTo_key_mem_flatten_go {d : Cfg} {p : List PyKey} {v : Cfg}
    (h : PathTo d p v) :
    ∀ (es acc : List (PyKey × Cfg)), d = .dict es →
      ∃ b2, (joinPath p, b2) ∈ flatten_go es acc := by
  induction h with
  | leaf hm hnd =>
    intro es acc hd
    injection hd with hes
    subst hes
    simpa [joinPath] using key_mem_flatten_go_leaf acc hm hnd
  | step hm hp ih =>
    intro es acc hd
    injection hd with hes
    subst hes
    obtain ⟨b0, hb0⟩ := ih _ ([] : List (PyKey × Cfg)) rfl
    rw [joinPath_cons _ _ (pathTo_ne_nil hp)]
    exact key_mem_flatten_go_dict acc hm hb0

theorem mem_flatten_go {a : PyKey} {b : Cfg} (es acc : List (PyKey × Cfg))
    (h : (a, b) ∈ flatten_go es acc) :
    (a, b) ∈ acc ∨
      (b.isDict = false ∧ ∃ p, PathTo (.dict es) p b ∧ joinPath p = a) := by
  match es with
  | [] =>
    exact Or.inl (by simpa [flatten_go] using h)
  | (k, v) :: rest =>
    cases hv : v.isDict with
    | false =>
      rw [flatten_go_cons_ndict k v rest acc hv] at h
      rcases mem_flatten_go rest _ h with h2 | ⟨hnd, p, hp, hj⟩
      · rcases mem_insertAssoc h2 with h3 | h3
        · injection h3 with h3a h3b
          subst h3a
          subst h3b
          refine Or.inr ⟨hv, [a], .leaf (List.mem_cons_self _ _) hv, rfl⟩
        · exact Or.inl h3
      · exact Or.inr ⟨hnd, p, pathTo_cons hp, hj⟩
    | true =>
      cases v with
      | dict sub =>
        rw [flatten_go_cons_dict] at h
        rcases mem_flatten_go rest _ h with h2 | ⟨hnd, p, hp, hj⟩
        · rcases mem_insertAll h2 with h3 | h3
          · exact Or.inl h3
          · obtain ⟨⟨a0, b0⟩, hq, heq⟩ := List.mem_map.mp h3
            injection heq with heqa heqb
            subst heqa
            subst heqb
            rcases mem_flatten_go sub [] hq with h4 | ⟨hnd, p, hp, hj⟩
            · cases h4
            · refine Or.inr ⟨hnd, k :: p, .step (List.mem_cons_self _ _) hp, ?_⟩
              rw [joinPath_cons _ _ (pathTo_ne_nil hp), hj]
        · exact Or.inr ⟨hnd, p, pathTo_cons hp, hj⟩
      | vint n => simp [Cfg.isDict] at hv
      | vstr s => simp [Cfg.isDict] at hv
      | vbool b0 => simp [Cfg.isDict] at hv
      | vnone => simp [Cfg.isDict] at hv
  termination_by sizeOf es

/-- Claim C2: flattening `{"a": {"b": 1, "c": {"d": 2}}}` yields
exactly `{"a.b": 1, "a.c.d": 2}`; and in general the result of
`flatten_dict_config` is a single-level mapping in which every entry's
value is a non-dict leaf reachable in the input along some path whose
dot-join is the entry's key, and conversely every leaf path's
dot-joined key is present in the result. -/
theorem flatten_dict_config_correct :
    flatten_dict_config exampleNested =
      [(.kstr (pstr "a.b"), .vint 1), (.kstr (pstr "a.c.d"), .vint 2)] ∧
    (∀ (es : List (PyKey × Cfg)) (a : PyKey) (b : Cfg),
       (a, b) ∈ flatten_dict_config es →
       b.isDict = false ∧ ∃ p, PathTo (.dict es) p b ∧ joinPath p = a) ∧
    (∀ (es : List (PyKey × Cfg)) (p : List PyKey) (v : Cfg),
       PathTo (.dict es) p v →
       ∃ b2, (joinPath p, b2) ∈ flatten_dict_config es) := by
  refine ⟨?_, ?_, ?_⟩
  · simp [flatten_dict_config, flatten_go, insertAll, insertAssoc, joinKey,
      exampleNested, pstr, PyKey.toStr]
  · intro es a b h
    rcases mem_flatten_go es [] h with h2 | h2
    · cases h2
    · exact h2
  · intro es p v h
    exact pathTo_key_mem_flatten_go h es [] rfl

/-- Witness for C2: the entry `("a.b", 1)` of the flattened example is
a leaf at a dot-joined path, and the leaf path `a.c.d` of the example
occurs as a key of the flattened result. -/
theorem flatten_dict_config_correct_witness :
    ((Cfg.vint 1).isDict = false ∧
      ∃ p, PathTo (.dict exampleNested) p (Cfg.vint 1) ∧
        joinPath p = .kstr (pstr "a.b")) ∧
    (∃ b2,
      (joinPath [PyKey.kstr (pstr "a"), PyKey.kstr (pstr "c"), PyKey.kstr (pstr "d")],
        b2) ∈ flatten_dict_config exampleNested) := by
  constructor
  · exact flatten_dict_config_correct.2.1 exampleNested (.kstr (pstr "a.b")) (.vint 1)
      (by simp [flatten_dict_config, flatten_go, insertAll, insertAssoc, joinKey,
        exampleNested, pstr, PyKey.toStr])
  · exact flatten_dict_config_correct.2.2 exampleNested
      [PyKey.kstr (pstr "a"), PyKey.kstr (pstr "c"), PyKey.kstr (pstr "d")] (.vint 2)
      (.step (List.mem_cons_self _ _)
        (.step (List.mem_cons_of_mem _ (List.mem_cons_self _ _))
          (.leaf (List.mem_cons_self _ _) rfl)))

/-- Claim C10: `flatten_dict_config` string-converts keys only when
joining nested paths: a top-level key whose value is a leaf stays in
the result under its original key object; with a non-string top-level
key (here the int `5`) the output therefore contains a non-string
key. -/
theorem flatten_keeps_top_level_leaf_keys :
    (∀ (es : List (PyKey × Cfg)) (k : PyKey) (v : Cfg),
       (k, v) ∈ es → v.isDict = false →
       ∃ b2, (k, b2) ∈ flatten_dict_config es) ∧
    flatten_dict_config [(.kint 5, .vint 7)] = [(.kint 5, .vint 7)] := by
  refine ⟨?_, ?_⟩
  · intro es k v h hv
    exact key_mem_flatten_go_leaf [] h hv
  · simp [flatten_dict_config, flatten_go, insertAssoc]

/-- Witness for C10: the int key `5` of a top-level leaf entry is a key
of the flattened result. -/
theorem flatten_keeps_top_level_leaf_keys_witness :
    ∃ b2, (PyKey.kint 5, b2) ∈ flatten_dict_config [(.kint 5, .vint 7)] :=
  flatten_keeps_top_level_leaf_keys.1 [(.kint 5, .vint 7)] (.kint 5) (.vint 7)
    (List.mem_singleton.mpr rfl) rfl
